import Mathlib

/-!
# Measurement-error mitigation: verification of the core numerical procedure

This file embeds the linear-algebra core of the notebook
`content/ch-quantum-hardware/measurement-error-mitigation.ipynb`:

* the hard-coded 4×4 calibration matrix `M`, the ideal count vector
  `Cideal`, the noisy vector `Cnoisy = np.dot(M, Cideal)`, the inverse
  `Minv = la.inv(M)` and the corrected vector
  `Cmitigated = np.dot(Minv, Cnoisy)` (embedded over ℚ: the decimal
  entries of `M` are exact decimal fractions, and `Minv` is the exact
  rational inverse, certified below by `Minv_mul_M`);
* the Calibration-Matrix Builder and Count Corrector that the spec
  distills from the notebook's procedure (build a column-stochastic
  matrix from basis-state counts, then invert or least-squares fit);
  these live only in the notebook's prose and in an external library,
  so they are modelled from the spec where marked;
* a name-resolution model of the notebook's cells, used to settle the
  claim about the final `plot_histogram` cell.
-/

namespace MeasMit

/-- Matrix–vector product on row-major lists of rationals, embedding
`np.dot(M, v)` for a list-of-rows matrix `M` and a flat vector `v`
(the notebook's column vectors `[[5000],[0],[0],[5000]]` are flattened
to `[5000,0,0,5000]`). -/
def matVecMul (A : List (List ℚ)) (v : List ℚ) : List ℚ :=
  A.map (fun row => (List.zipWith (· * ·) row v).sum)

/-- The hard-coded 4×4 calibration matrix of the notebook (cells 6 and 7). -/
def M : List (List ℚ) :=
  [[0.9808, 0.0107, 0.0095, 0.0001],
   [0.0095, 0.9788, 0.0001, 0.0107],
   [0.0096, 0.0002, 0.9814, 0.0087],
   [0.0001, 0.0103, 0.0090, 0.9805]]

/-- The ideal count vector for the Bell state, `Cideal` in cell 6. -/
def Cideal : List ℚ := [5000, 0, 0, 5000]

/-- The noisy vector `Cnoisy = np.dot(M, Cideal)` of cell 6. -/
def Cnoisy : List ℚ := matVecMul M Cideal

/-- The inverse `Minv = la.inv(M)` of cell 7: the exact rational inverse of `M`.
That this list of rows is indeed the inverse is proved in `Minv_mul_M`. -/
def Minv : List (List ℚ) :=
  [[941677939237/923412438513, -3431116921/307804146171,
    -9115330763/923412438513, 97169237/923412438513],
   [-3046561663/307804146171, 104846782779/102601382057,
    28918337/307804146171, -3432461663/307804146171],
   [-3070109209/307804146171, -416403/102601382057,
    313693050791/307804146171, -2783079209/307804146171],
   [84511892/923412438513, -3303836036/307804146171,
    -8638138108/923412438513, 941961891892/923412438513]]

/-- The corrected vector `Cmitigated = np.dot(Minv, Cnoisy)` of cell 8.
The notebook applies no
clamping and no rounding inside this computation; rounding happens only in
the prose after the cell. -/
def Cmitigated : List ℚ := matVecMul Minv Cnoisy

/-- The notebook's whole direct-inverse correction pipeline applied to an
arbitrary noisy vector: `np.dot(Minv, c)`, with no clamping step. -/
def mitigate (c : List ℚ) : List ℚ := matVecMul Minv c

/-- Entry `(i, j)` of a row-major list matrix. -/
def entry (A : List (List ℚ)) (i j : ℕ) : ℚ := (A.getD i []).getD j 0

/-- Rounding a rational to the nearest integer, as in the notebook's
"these values need to be rounded" step. -/
def roundQ (q : ℚ) : ℤ := round q

/-- The list `Minv` is the exact inverse of `M`: applying `Minv` to each column of
`M` returns the corresponding standard basis vector, i.e. `Minv · M = I₄`. -/
theorem Minv_mul_M :
    matVecMul Minv [0.9808, 0.0095, 0.0096, 0.0001] = [1, 0, 0, 0] ∧
    matVecMul Minv [0.0107, 0.9788, 0.0002, 0.0103] = [0, 1, 0, 0] ∧
    matVecMul Minv [0.0095, 0.0001, 0.9814, 0.0090] = [0, 0, 1, 0] ∧
    matVecMul Minv [0.0001, 0.0107, 0.0087, 0.9805] = [0, 0, 0, 1] := by
  norm_num [matVecMul, Minv]

theorem Cmitigated_eq : Cmitigated = [5000, 0, 0, 5000] := by
  norm_num [Cmitigated, Cnoisy, matVecMul, M, Minv, Cideal]

/-- C1: for the hard-coded 4×4 calibration matrix `M`, `np.dot(M, Cideal)`
with `Cideal = [5000,0,0,5000]` is exactly `[4904.5, 101, 91.5, 4903]`, and
applying the direct inverse `Minv = la.inv(M)` to that noisy vector gives
back exactly `[5000, 0, 0, 5000]`, so rounding each entry to the nearest
integer recovers `[5000, 0, 0, 5000]` (in particular within ±1). -/
theorem C1_concrete_scenario :
    Cnoisy = [4904.5, 101, 91.5, 4903] ∧
    Cmitigated = [5000, 0, 0, 5000] ∧
    Cmitigated.map roundQ = [5000, 0, 0, 5000] := by
  have h : Cmitigated = [5000, 0, 0, 5000] :=
    Cmitigated_eq
  refine ⟨by norm_num [Cnoisy, matVecMul, M, Cideal], h, ?_⟩
  rw [h]
  norm_num [roundQ, round_eq, Int.floor_eq_iff]

/-- C9: the exact inverse of the notebook's matrix `M` has strictly
negative off-diagonal entries (for instance at positions (0,1) and (1,0)),
and the notebook's uncorrected pipeline `np.dot(Minv, ·)` therefore maps
the non-negative count vector `10000·e₁ = [0,10000,0,0]` to a vector whose
first entry is strictly negative; no clamping or rounding step in the code
removes it (`mitigate` is the entire correction). -/
theorem C9_negative_inverse_entries :
    entry Minv 0 1 < 0 ∧ entry Minv 1 0 < 0 ∧ entry Minv 2 3 < 0 ∧
    (mitigate [0, 10000, 0, 0]).getD 0 0 < 0 := by
  refine ⟨by norm_num [entry, Minv], by norm_num [entry, Minv],
    by norm_num [entry, Minv], ?_⟩
  norm_num [mitigate, matVecMul, Minv]

/-! ## The Calibration-Matrix Builder -/

/-- The error taxonomy of the spec's core (section 7): malformed count
data, matrix/vector size mismatch, and a numerically non-invertible
matrix on the direct-inverse path. -/
inductive CorrErr where
  | InvalidInput
  | DimensionMismatch
  | SingularMatrix
deriving DecidableEq

/-- Modelled from the spec: the Calibration-Matrix Builder.  The notebook
delegates this step to `CompleteMeasFitter` of an external library and
describes it in prose ("taking the counts dictionary for |00⟩, normalizing
it so that all elements sum to one, and then using it as the first column
of the matrix"); no implementation is under `src/`.  Input: for each of
the `2^n` basis states, the dense count vector (length `2^n`, indexed by
the outcome's integer encoding) of the calibration run for that state.
Output: the calibration matrix as the list of its `2^n` columns, column
`j` being the counts for basis state `j` divided by that column's own shot
total.  Fails with `InvalidInput` if fewer than `2^n` distributions are
supplied or any supplied distribution has a shot total of zero. -/
def buildCalMatrix (n : ℕ) (cals : List (List ℕ)) :
    Except CorrErr (List (List ℚ)) :=
  if cals.length < 2 ^ n then .error .InvalidInput
  else if cals.any (fun d => d.sum == 0) then .error .InvalidInput
  else .ok ((cals.take (2 ^ n)).map
    (fun (d : List ℕ) => d.map (fun (c : ℕ) => (c : ℚ) / (d.sum : ℚ))))

theorem sum_map_div (l : List ℕ) (s : ℚ) :
    (l.map (fun (c : ℕ) => (c : ℚ) / s)).sum = (l.sum : ℚ) / s := by
  induction l with
  | nil => simp
  | cons a t ih =>
    simp only [List.map_cons, List.sum_cons, ih]
    push_cast
    rw [add_div]

/-- C2: whenever each of the `2^n` basis-state count distributions has a
positive shot total (and is a dense vector of length `2^n`), the builder
succeeds, and the produced `2^n × 2^n` matrix has column `j` equal to the
counts for basis state `j` divided by that column's own shot total; every
column sums exactly to 1 and every entry lies in `[0, 1]`. -/
theorem C2_calibration_matrix_stochastic (n : ℕ) (cals : List (List ℕ))
    (hlen : cals.length = 2 ^ n)
    (hdim : ∀ d ∈ cals, d.length = 2 ^ n)
    (hpos : ∀ d ∈ cals, 0 < d.sum) :
    ∃ cols, buildCalMatrix n cals = .ok cols ∧
      cols.length = 2 ^ n ∧
      (∀ col ∈ cols, col.length = 2 ^ n) ∧
      cols = cals.map
        (fun (d : List ℕ) => d.map (fun (c : ℕ) => (c : ℚ) / (d.sum : ℚ))) ∧
      (∀ col ∈ cols, col.sum = 1) ∧
      (∀ col ∈ cols, ∀ e ∈ col, 0 ≤ e ∧ e ≤ 1) := by
  have hnotlt : ¬ cals.length < 2 ^ n := by omega
  have hany : cals.any (fun d => d.sum == 0) = false := by
    rw [List.any_eq_false]
    intro d hd
    have := hpos d hd
    simp only [beq_iff_eq]
    omega
  have htake : cals.take (2 ^ n) = cals := by
    rw [← hlen]; exact List.take_length cals
  refine ⟨_, by simp [buildCalMatrix, hnotlt, hany, htake], ?_, ?_, rfl, ?_, ?_⟩
  · simpa using hlen
  · intro col hcol
    obtain ⟨d, hd, rfl⟩ := List.mem_map.mp hcol
    simpa using hdim d hd
  · intro col hcol
    obtain ⟨d, hd, rfl⟩ := List.mem_map.mp hcol
    have hs : (0 : ℚ) < (d.sum : ℚ) := by exact_mod_cast hpos d hd
    rw [sum_map_div, div_self (ne_of_gt hs)]
  · intro col hcol e he
    obtain ⟨d, hd, rfl⟩ := List.mem_map.mp hcol
    obtain ⟨c, hc, rfl⟩ := List.mem_map.mp he
    have hs : (0 : ℚ) < (d.sum : ℚ) := by exact_mod_cast hpos d hd
    have hcle : (c : ℚ) ≤ (d.sum : ℚ) := by
      have : c ≤ d.sum := List.le_sum_of_mem hc
      exact_mod_cast this
    constructor
    · positivity
    · rw [div_le_one hs]
      exact hcle

/-- Concrete instance of C2: one qubit, calibration counts `[3,1]` for
basis state 0 and `[0,2]` for basis state 1. -/
theorem C2_calibration_matrix_stochastic_witness :
    ∃ cols, buildCalMatrix 1 [[3, 1], [0, 2]] = .ok cols ∧
      cols.length = 2 ^ 1 ∧
      (∀ col ∈ cols, col.length = 2 ^ 1) ∧
      cols = [[3, 1], [0, 2]].map
        (fun (d : List ℕ) => d.map (fun (c : ℕ) => (c : ℚ) / (d.sum : ℚ))) ∧
      (∀ col ∈ cols, col.sum = 1) ∧
      (∀ col ∈ cols, ∀ e ∈ col, 0 ≤ e ∧ e ≤ 1) :=
  C2_calibration_matrix_stochastic 1 [[3, 1], [0, 2]] (by decide)
    (by decide) (by decide)

/-- C8: the Calibration-Matrix Builder fails with `InvalidInput`, and so
produces no matrix, whenever fewer than `2^n` basis-state distributions
are supplied or any supplied distribution has a shot total of zero. -/
theorem C8_builder_rejects_bad_calibration (n : ℕ) (cals : List (List ℕ))
    (h : cals.length < 2 ^ n ∨ ∃ d ∈ cals, d.sum = 0) :
    buildCalMatrix n cals = .error .InvalidInput := by
  unfold buildCalMatrix
  rcases Nat.lt_or_ge cals.length (2 ^ n) with hl | hl
  · simp [hl]
  · rcases h with hlt | ⟨d, hd, hsum⟩
    · omega
    · have hany : cals.any (fun d => d.sum == 0) = true :=
        List.any_eq_true.mpr ⟨d, hd, by simp [hsum]⟩

      simp [Nat.not_lt.mpr hl, hany]

/-- Concrete instance of C8: one distribution too few, and a zero shot
total, both rejected. -/
theorem C8_builder_rejects_bad_calibration_witness :
    buildCalMatrix 1 [[7, 2]] = .error .InvalidInput ∧
    buildCalMatrix 1 [[7, 2], [0, 0]] = .error .InvalidInput :=
  ⟨C8_builder_rejects_bad_calibration 1 [[7, 2]] (by decide),
   C8_builder_rejects_bad_calibration 1 [[7, 2], [0, 0]]
     (Or.inr ⟨[0, 0], by decide, by decide⟩)⟩

/-! ## The Count Corrector (direct-inverse strategy) -/

/-- The inverse of a square rational matrix with nonzero determinant,
computed as `det⁻¹ • adjugate` (Cramer's rule), embedding `la.inv`. -/
def qInv {m : ℕ} (A : Matrix (Fin m) (Fin m) ℚ) : Matrix (Fin m) (Fin m) ℚ :=
  (A.det)⁻¹ • A.adjugate

theorem qInv_mul {m : ℕ} (A : Matrix (Fin m) (Fin m) ℚ) (h : A.det ≠ 0) :
    qInv A * A = 1 := by
  rw [qInv, Matrix.smul_mul, Matrix.adjugate_mul, smul_smul,
    inv_mul_cancel₀ h, one_smul]

/-- Modelled from the spec: the Count Corrector, direct-inverse strategy.
The notebook performs only the unchecked computation `np.dot(la.inv(M), C)`
and the spec's contract adds the synchronous error checks: a noisy vector
whose length differs from the row count of `M` fails with
`DimensionMismatch`, a negative entry fails with `InvalidInput`, and a
singular `M` fails with `SingularMatrix`; otherwise the corrected vector
is `M⁻¹ · C`. -/
def countCorrect (m : ℕ) (A : Matrix (Fin m) (Fin m) ℚ) (c : List ℚ) :
    Except CorrErr (Fin m → ℚ) :=
  if c.length ≠ m then .error .DimensionMismatch
  else if c.any (fun q => decide (q < 0)) then .error .InvalidInput
  else if A.det = 0 then .error .SingularMatrix
  else .ok ((qInv A).mulVec (fun i => c.getD i 0))

/-- C7: a call to the Count Corrector with a noisy vector whose length
differs from the row count of `M` fails with `DimensionMismatch`, and a
call whose noisy vector has a negative entry fails with `InvalidInput`;
in both cases the result is an error, so no corrected vector is
returned. -/
theorem C7_corrector_input_checks (m : ℕ) (A : Matrix (Fin m) (Fin m) ℚ)
    (c : List ℚ) :
    (c.length ≠ m → countCorrect m A c = .error .DimensionMismatch) ∧
    (c.length = m → (∃ q ∈ c, q < 0) →
      countCorrect m A c = .error .InvalidInput) := by
  constructor
  · intro h
    simp [countCorrect, h]
  · rintro hlen ⟨q, hq, hneg⟩
    have hany : c.any (fun q => decide (q < 0)) = true :=
      List.any_eq_true.mpr ⟨q, hq, by simpa using hneg⟩
    simp [countCorrect, hlen, hany]

/-- Concrete instance of C7: a 2×2 identity matrix with a length-1 vector
(dimension mismatch) and with a vector holding a negative count. -/
theorem C7_corrector_input_checks_witness :
    countCorrect 2 1 [5] = .error .DimensionMismatch ∧
    countCorrect 2 1 [-1, 5] = .error .InvalidInput :=
  ⟨(C7_corrector_input_checks 2 1 [5]).1 (by decide),
   (C7_corrector_input_checks 2 1 [-1, 5]).2 (by decide)
     ⟨-1, by decide, by decide⟩⟩

/-! ## The Count Corrector (least-squares strategy) -/

/-- Modelled from the spec: the least-squares strategy of the Count
Corrector returns a solution of the constrained least-squares problem
"minimize `‖M·x − C_noisy‖²` subject to `x ≥ 0` element-wise and
`sum(x) = sum(C_noisy)`".  The notebook delegates this to
`meas_filter.apply` of an external library, so the strategy is modelled
as this predicate over ℝ: `x` is a feasible point whose residual is
minimal among all feasible points. -/
def IsLSQSolution {m : ℕ} (B : Matrix (Fin m) (Fin m) ℝ) (v x : Fin m → ℝ) :
    Prop :=
  (∀ i, 0 ≤ x i) ∧ (∑ i, x i) = (∑ i, v i) ∧
    ∀ y : Fin m → ℝ, (∀ i, 0 ≤ y i) → ((∑ i, y i) = (∑ i, v i)) →
      (∑ i, (B.mulVec x i - v i) ^ 2) ≤ (∑ i, (B.mulVec y i - v i) ^ 2)

/-- The constrained least-squares problem always has a solution when the
noisy vector is non-negative: the feasible set is a non-empty compact set
and the residual is continuous on it. -/
theorem existsLSQSolution {m : ℕ} (B : Matrix (Fin m) (Fin m) ℝ)
    (v : Fin m → ℝ) (hv : ∀ i, 0 ≤ v i) : ∃ x, IsLSQSolution B v x := by
  classical
  set S : ℝ := ∑ i, v i with hS
  have hS0 : 0 ≤ S := Finset.sum_nonneg fun i _ => hv i
  set K : Set (Fin m → ℝ) := {x | (∀ i, 0 ≤ x i) ∧ (∑ i, x i) = S} with hK
  have hne : K.Nonempty := by
    rcases Nat.eq_zero_or_pos m with hm | hm
    · refine ⟨fun i => 0, fun i => le_refl 0, ?_⟩
      subst hm
      simp [hS]
    · refine ⟨fun _ => S / m, fun i => by positivity, ?_⟩
      rw [Finset.sum_const, Finset.card_univ, Fintype.card_fin, nsmul_eq_mul,
        mul_div_cancel₀]
      exact_mod_cast Nat.pos_iff_ne_zero.mp hm
  have hclosed : IsClosed K := by
    have : K = (⋂ i, {x : Fin m → ℝ | 0 ≤ x i}) ∩
        {x : Fin m → ℝ | (∑ i, x i) = S} := by
      ext x
      simp [hK, Set.mem_iInter]
    rw [this]
    exact (isClosed_iInter fun i =>
        isClosed_le continuous_const (continuous_apply i)).inter
      (isClosed_eq (continuous_finset_sum _ fun i _ => continuous_apply i)
        continuous_const)
  have hsub : K ⊆ Set.pi Set.univ (fun _ : Fin m => Set.Icc (0 : ℝ) S) := by
    rintro x ⟨hx0, hxS⟩ i _
    refine ⟨hx0 i, ?_⟩
    rw [← hxS]
    exact Finset.single_le_sum (fun j _ => hx0 j) (Finset.mem_univ i)
  have hcomp : IsCompact K :=
    (isCompact_univ_pi fun _ => isCompact_Icc).of_isClosed_subset hclosed hsub
  have hcont :
      Continuous (fun x : Fin m → ℝ => ∑ i, (B.mulVec x i - v i) ^ 2) := by
    refine continuous_finset_sum _ fun i _ => ?_
    have hmv : Continuous (fun x : Fin m → ℝ => B.mulVec x i) := by
      simp only [Matrix.mulVec, Matrix.dotProduct]
      exact continuous_finset_sum _ fun j _ =>
        continuous_const.mul (continuous_apply j)
    exact (hmv.sub continuous_const).pow 2
  obtain ⟨x, hxK, hmin⟩ := hcomp.exists_isMinOn hne hcont.continuousOn
  exact ⟨x, hxK.1, hxK.2, fun y hy0 hyS => hmin (Set.mem_setOf.mpr ⟨hy0, hyS⟩)⟩

/-- C4: any output of the least-squares correction path has all entries
non-negative and entry sum equal to the entry sum of the noisy input — for
every calibration matrix whose columns sum to 1 and every non-negative
integer noisy count vector (the conservation law holds for every matrix;
the column hypothesis mirrors the claim). -/
theorem C4_least_squares_conservation (m : ℕ) (B : Matrix (Fin m) (Fin m) ℝ)
    (cn : Fin m → ℕ) (x : Fin m → ℝ)
    (_hcol : ∀ j, (∑ i, B i j) = 1)
    (hx : IsLSQSolution B (fun i => (cn i : ℝ)) x) :
    (∀ i, 0 ≤ x i) ∧ (∑ i, x i) = (∑ i, (cn i : ℝ)) :=
  ⟨hx.1, hx.2.1⟩

/-- Concrete instance of C4: the column-stochastic matrix
`[[1, 1/2], [0, 1/2]]` (whose direct inverse maps the noisy vector
`[0, 1]` to a vector with a negative entry) and the least-squares
solution `[0, 1]` for that noisy vector. -/
theorem C4_least_squares_conservation_witness :
    ((qInv (Matrix.of ![![1, 1/2], ![0, 1/2]] : Matrix (Fin 2) (Fin 2) ℚ)).mulVec
        ![0, 1]) 0 < 0 ∧
    ((∀ i, 0 ≤ (![0, 1] : Fin 2 → ℝ) i) ∧
      (∑ i, (![0, 1] : Fin 2 → ℝ) i) = (∑ i, ((![0, 1] : Fin 2 → ℕ) i : ℝ))) := by
  constructor
  · norm_num [qInv, Matrix.det_fin_two, Matrix.adjugate_fin_two,
      Matrix.mulVec, Matrix.dotProduct, Fin.sum_univ_two]
  · refine C4_least_squares_conservation 2
      (Matrix.of ![![1, 1/2], ![0, 1/2]] : Matrix (Fin 2) (Fin 2) ℝ)
      ![0, 1] ![0, 1] ?_ ?_
    · intro j
      fin_cases j <;> simp [Fin.sum_univ_two]
    · refine ⟨fun i => ?_, ?_, fun y hy0 hyS => ?_⟩
      · fin_cases i <;> norm_num
      · simp [Fin.sum_univ_two]
      · have hyS' : y 0 + y 1 = 1 := by
          simpa [Fin.sum_univ_two] using hyS
        have hy1 : y 1 ≤ 1 := by
          have := hy0 0
          linarith
        have ha : (1 : ℝ) / 2 ≤ y 0 + y 1 / 2 := by linarith [hy0 0, hy0 1]
        simp only [Matrix.mulVec, Matrix.dotProduct, Fin.sum_univ_two,
          Matrix.of_apply, Matrix.cons_val_zero, Matrix.cons_val_one,
          Matrix.head_cons, Matrix.head_fin_const]
        norm_num
        nlinarith [sq_nonneg (y 0 + y 1 / 2 - 1 / 2), ha]

theorem getD_nonneg {c : List ℚ} (h : ∀ q ∈ c, 0 ≤ q) (i : ℕ) :
    0 ≤ c.getD i 0 := by
  induction c generalizing i with
  | nil => simp
  | cons a t ih =>
    cases i with
    | zero => simpa using h a (by simp)
    | succ n =>
      simp only [List.getD_cons_succ]
      exact ih (fun q hq => h q (List.mem_cons_of_mem a hq)) n

/-- C6: on every exactly singular calibration matrix (zero determinant;
a repeated column, as in the spec's example, is one way to get there, by
`Matrix.det_zero_of_column_eq`) and a well-formed non-negative noisy
vector, the direct-inverse path of the Count Corrector fails with
`SingularMatrix`, while the least-squares problem on the same matrix and
vector has a solution. -/
theorem C6_singular_direct_vs_least_squares (m : ℕ)
    (A : Matrix (Fin m) (Fin m) ℚ) (c : List ℚ)
    (hlen : c.length = m) (hnn : ∀ q ∈ c, 0 ≤ q)
    (hdet : A.det = 0) :
    countCorrect m A c = .error .SingularMatrix ∧
    ∃ x : Fin m → ℝ,
      IsLSQSolution (A.map (fun q => (q : ℝ)))
        (fun i => ((c.getD i 0 : ℚ) : ℝ)) x := by
  constructor
  · have hany : c.any (fun q => decide (q < 0)) = false := by
      rw [List.any_eq_false]
      intro q hq
      simpa using hnn q hq
    simp [countCorrect, hlen, hany, hdet]
  · exact existsLSQSolution _ _ fun i => by
      exact_mod_cast getD_nonneg hnn (i : ℕ)

/-- Concrete instance of C6: a singular 2×2 matrix (here one with two
equal columns) and the noisy vector `[1, 1]`. -/
theorem C6_singular_direct_vs_least_squares_witness :
    countCorrect 2 (Matrix.of ![![1, 1], ![0, 0]]) [1, 1]
        = .error .SingularMatrix ∧
    ∃ x : Fin 2 → ℝ,
      IsLSQSolution
        ((Matrix.of ![![1, 1], ![0, 0]] : Matrix (Fin 2) (Fin 2) ℚ).map
          (fun q => (q : ℝ)))
        (fun i => ((([1, 1] : List ℚ).getD i 0 : ℚ) : ℝ)) x :=
  C6_singular_direct_vs_least_squares 2 (Matrix.of ![![1, 1], ![0, 0]])
    [1, 1] (by decide) (by decide)
    (by simp [Matrix.det_fin_two])

/-! ## Identity noise -/

/-- A list-of-columns matrix as a function matrix: entry `(i, j)` is
entry `i` of column `j`. -/
def colsToMatrix (m : ℕ) (cols : List (List ℚ)) : Matrix (Fin m) (Fin m) ℚ :=
  Matrix.of fun i j => (cols.getD j []).getD i 0

/-- The calibration data produced by the identity (no bit-flip) noise
process: preparing basis state `j` puts all of its `s j` shots on
outcome `j`. -/
def identityCalData (m : ℕ) (s : ℕ → ℕ) : List (List ℕ) :=
  (List.range m).map
    (fun j => (List.range m).map (fun i => if i = j then s j else 0))

theorem sum_map_ite_range {α : Type} [AddCommMonoid α] (m j : ℕ) (a : α)
    (h : j < m) :
    ((List.range m).map (fun i => if i = j then a else 0)).sum = a := by
  induction m with
  | zero => omega
  | succ k ih =>
    rw [List.range_succ, List.map_append, List.sum_append]
    rcases Nat.lt_or_ge j k with hj | hj
    · rw [ih hj]
      have hk : k ≠ j := by omega
      simp [hk]
    · have hjk : j = k := by omega
      subst hjk
      have hzero :
          ((List.range j).map (fun i => if i = j then a else 0)).sum = 0 := by
        apply List.sum_eq_zero
        intro x hx
        obtain ⟨i, hi, rfl⟩ := List.mem_map.mp hx
        have : i ≠ j := Nat.ne_of_lt (List.mem_range.mp hi)
        simp [this]
      simp [hzero]

/-- On identity-noise calibration data with positive shot totals, the
builder produces the identity matrix (as its list of columns). -/
theorem buildCal_identity (n : ℕ) (s : ℕ → ℕ) (hs : ∀ j < 2 ^ n, 0 < s j) :
    buildCalMatrix n (identityCalData (2 ^ n) s)
      = .ok ((List.range (2 ^ n)).map
          (fun j => (List.range (2 ^ n)).map
            (fun i => if i = j then (1 : ℚ) else 0))) := by
  set m := 2 ^ n with hm
  have hlen : (identityCalData m s).length = m := by
    simp [identityCalData]
  have hsum : ∀ j < m,
      ((List.range m).map (fun i => if i = j then s j else 0)).sum = s j :=
    fun j hj => sum_map_ite_range m j (s j) hj
  have hany : (identityCalData m s).any (fun d => d.sum == 0) = false := by
    rw [List.any_eq_false]
    intro d hd
    obtain ⟨j, hj, rfl⟩ := List.mem_map.mp hd
    rw [List.mem_range] at hj
    rw [hsum j hj]
    have := hs j hj
    simp only [beq_iff_eq]
    omega
  have hnotlt : ¬ (identityCalData m s).length < 2 ^ n := by
    rw [hlen, hm]
    omega
  have htake : (identityCalData m s).take (2 ^ n) = identityCalData m s :=
    List.take_of_length_le (le_of_eq (by rw [hlen, hm]))
  rw [buildCalMatrix, if_neg hnotlt, if_neg (by rw [hany]; exact Bool.false_ne_true),
    htake]
  congr 1
  rw [identityCalData, List.map_map]
  apply List.map_congr_left
  intro j hj
  rw [List.mem_range] at hj
  simp only [Function.comp_apply]
  rw [hsum j hj, List.map_map]
  apply List.map_congr_left
  intro i _
  simp only [Function.comp_apply]
  by_cases hij : i = j
  · have hne : ((s j : ℚ)) ≠ 0 := by
      have := hs j hj
      exact_mod_cast Nat.pos_iff_ne_zero.mp this
    simp [hij, div_self hne]
  · simp [hij]

/-- The identity list-of-columns matrix converts to the identity
function matrix. -/
theorem colsToMatrix_identity (m : ℕ) :
    colsToMatrix m ((List.range m).map
      (fun j => (List.range m).map (fun i => if i = j then (1 : ℚ) else 0)))
      = 1 := by
  ext i j
  have hj : (j : ℕ) < ((List.range m).map
      (fun jj => (List.range m).map
        (fun ii => if ii = jj then (1 : ℚ) else 0))).length := by
    simp [j.isLt]
  have hcol : ((List.range m).map
      (fun jj => (List.range m).map
        (fun ii => if ii = jj then (1 : ℚ) else 0))).getD (j : ℕ) []
      = (List.range m).map (fun ii => if ii = (j : ℕ) then (1 : ℚ) else 0) := by
    rw [List.getD_eq_getElem?_getD, List.getElem?_eq_getElem hj,
      Option.getD_some, List.getElem_map, List.getElem_range]
  have hi : (i : ℕ) < ((List.range m).map
      (fun ii => if ii = (j : ℕ) then (1 : ℚ) else 0)).length := by
    simp [i.isLt]
  have hent : ((List.range m).map
      (fun ii => if ii = (j : ℕ) then (1 : ℚ) else 0)).getD (i : ℕ) 0
      = if (i : ℕ) = (j : ℕ) then (1 : ℚ) else 0 := by
    rw [List.getD_eq_getElem?_getD, List.getElem?_eq_getElem hi,
      Option.getD_some, List.getElem_map, List.getElem_range]
  rw [colsToMatrix, Matrix.of_apply, hcol, hent, Matrix.one_apply]
  by_cases hij : i = j
  · simp [hij]
  · have hv : (i : ℕ) ≠ (j : ℕ) := fun h => hij (Fin.ext h)
    simp [hij, hv]

/-- Correcting with the identity calibration matrix returns the noisy
vector unchanged (exactly, hence also within integer rounding). -/
theorem countCorrect_one (m : ℕ) (c : List ℚ) (hlen : c.length = m)
    (hnn : ∀ q ∈ c, 0 ≤ q) :
    countCorrect m 1 c = .ok (fun i => c.getD i 0) := by
  have hany : c.any (fun q => decide (q < 0)) = false := by
    rw [List.any_eq_false]
    intro q hq
    simpa using hnn q hq
  have hqinv : qInv (1 : Matrix (Fin m) (Fin m) ℚ) = 1 := by
    rw [qInv, Matrix.det_one, Matrix.adjugate_one, inv_one, one_smul]
  simp [countCorrect, hlen, hany, Matrix.det_one, hqinv, Matrix.one_mulVec]

/-- C3: for the identity noise process (each basis state measured, with a
positive shot total, entirely as itself), the Calibration-Matrix Builder
produces the identity matrix, and the Count Corrector with that matrix
returns any well-formed non-negative noisy count vector unchanged —
exactly, so in particular within integer rounding. -/
theorem C3_identity_noise_roundtrip (n : ℕ) (s : ℕ → ℕ)
    (hs : ∀ j < 2 ^ n, 0 < s j) (c : List ℚ) (hlen : c.length = 2 ^ n)
    (hnn : ∀ q ∈ c, 0 ≤ q) :
    ∃ cols, buildCalMatrix n (identityCalData (2 ^ n) s) = .ok cols ∧
      colsToMatrix (2 ^ n) cols = 1 ∧
      countCorrect (2 ^ n) (colsToMatrix (2 ^ n) cols) c
        = .ok (fun i => c.getD i 0) := by
  refine ⟨_, buildCal_identity n s hs, colsToMatrix_identity _, ?_⟩
  rw [colsToMatrix_identity]
  exact countCorrect_one _ c hlen hnn

/-- Concrete instance of C3: one qubit, 10000 shots per basis state, and
the noisy vector `[3, 4]`. -/
theorem C3_identity_noise_roundtrip_witness :
    ∃ cols,
      buildCalMatrix 1 (identityCalData (2 ^ 1) (fun _ => 10000))
        = .ok cols ∧
      colsToMatrix (2 ^ 1) cols = 1 ∧
      countCorrect (2 ^ 1) (colsToMatrix (2 ^ 1) cols) [3, 4]
        = .ok (fun i => ([3, 4] : List ℚ).getD i 0) :=
  C3_identity_noise_roundtrip 1 (fun _ => 10000) (by decide) [3, 4]
    (by decide) (by decide)

/-! ## Round-trip behaviour of the direct-inverse corrector -/

/-- Entrywise rounding of a rational vector to the nearest integers,
forming notebook-style noisy counts `round(M·x)`. -/
def roundVec {m : ℕ} (v : Fin m → ℚ) : Fin m → ℚ :=
  fun i => ((round (v i) : ℤ) : ℚ)

/-- Strict column diagonal dominance: in every column the diagonal entry
dominates the sum of the absolute values of the off-diagonal entries. -/
def ColDiagDominant {m : ℕ} (A : Matrix (Fin m) (Fin m) ℚ) : Prop :=
  ∀ j, (∑ i, if i = j then 0 else |A i j|) < |A j j|

/-- Amended C5: for every column-stochastic, diagonally dominant,
invertible calibration matrix and every ideal vector of non-negative
integer counts, the direct-inverse round trip
`x ↦ M⁻¹ · round(M·x)` misses each entry of `x` by at most half the
absolute row sum of `M⁻¹` — a bound depending only on `M` and not on the
shot total `S`, so the per-shot (relative) error shrinks like `1/S`. -/
theorem C5_roundtrip_error_bound (m : ℕ) (A : Matrix (Fin m) (Fin m) ℚ)
    (xn : Fin m → ℕ)
    (_hcol : ∀ j, (∑ i, A i j) = 1)
    (_hdd : ColDiagDominant A)
    (hdet : A.det ≠ 0) :
    ∀ i, |(qInv A).mulVec (roundVec (A.mulVec (fun j => (xn j : ℚ)))) i
        - (xn i : ℚ)| ≤ (∑ j, |qInv A i j|) / 2 := by
  intro i
  set x : Fin m → ℚ := fun j => (xn j : ℚ) with hxdef
  set N := qInv A with hN
  have hNA : N * A = 1 := qInv_mul A hdet
  have hfix : N.mulVec (A.mulVec x) = x := by
    rw [Matrix.mulVec_mulVec, hNA, Matrix.one_mulVec]
  have hsplit : N.mulVec (roundVec (A.mulVec x)) i - x i
      = ∑ j, N i j * (roundVec (A.mulVec x) j - A.mulVec x j) := by
    calc N.mulVec (roundVec (A.mulVec x)) i - x i
        = N.mulVec (roundVec (A.mulVec x)) i - N.mulVec (A.mulVec x) i := by
          rw [hfix]
      _ = N.mulVec (roundVec (A.mulVec x) - A.mulVec x) i := by
          rw [Matrix.mulVec_sub]
          simp
      _ = ∑ j, N i j * (roundVec (A.mulVec x) j - A.mulVec x j) := by
          simp [Matrix.mulVec, Matrix.dotProduct]
  rw [hsplit]
  calc |∑ j, N i j * (roundVec (A.mulVec x) j - A.mulVec x j)|
      ≤ ∑ j, |N i j * (roundVec (A.mulVec x) j - A.mulVec x j)| :=
        Finset.abs_sum_le_sum_abs _ _
    _ ≤ ∑ j, |N i j| * (1 / 2) := by
        apply Finset.sum_le_sum
        intro j _
        rw [abs_mul]
        refine mul_le_mul_of_nonneg_left ?_ (abs_nonneg _)
        have h := abs_sub_round (A.mulVec x j)
        rw [abs_sub_comm] at h
        simpa [roundVec] using h
    _ = (∑ j, |N i j|) / 2 := by
        rw [Finset.sum_div]
        apply Finset.sum_congr rfl
        intro j _
        ring

/-- A valid calibration matrix used below: column-stochastic and strictly
diagonally dominant, modelling a 25% symmetric readout flip on one bit. -/
def Mdd : Matrix (Fin 2) (Fin 2) ℚ := Matrix.of ![![3/4, 1/4], ![1/4, 3/4]]

theorem Mdd_colsum : ∀ j, (∑ i, Mdd i j) = 1 := by
  intro j
  fin_cases j <;> simp [Mdd, Fin.sum_univ_two] <;> norm_num

theorem Mdd_dd : ColDiagDominant Mdd := by
  intro j
  fin_cases j <;>
    simp [Mdd, ColDiagDominant, Fin.sum_univ_two] <;>
    rw [abs_of_pos (by norm_num), abs_of_pos (by norm_num)] <;> norm_num

theorem Mdd_det : Mdd.det ≠ 0 := by
  simp [Mdd, Matrix.det_fin_two]
  norm_num

/-- Concrete instance of the amended C5 at the ideal vector `[5, 0]`. -/
theorem C5_roundtrip_error_bound_witness :
    |(qInv Mdd).mulVec (roundVec (Mdd.mulVec
        (fun j => ((![5, 0] : Fin 2 → ℕ) j : ℚ)))) 0
      - ((![5, 0] : Fin 2 → ℕ) 0 : ℚ)| ≤ (∑ j, |qInv Mdd 0 j|) / 2 :=
  C5_roundtrip_error_bound 2 Mdd ![5, 0] Mdd_colsum Mdd_dd Mdd_det 0

theorem qInv_Mdd_entries :
    qInv Mdd 0 0 = 3 / 2 ∧ qInv Mdd 0 1 = -(1 / 2) ∧
    qInv Mdd 1 0 = -(1 / 2) ∧ qInv Mdd 1 1 = 3 / 2 := by
  refine ⟨?_, ?_, ?_, ?_⟩ <;>
    simp [qInv, Mdd, Matrix.det_fin_two, Matrix.adjugate_fin_two] <;>
    norm_num

/-- With `Mdd` and ideal vector `[4k+1, 0]`, the direct-inverse round trip
misses the true count in entry 0 by exactly `1/2`, for every `k`. -/
theorem roundtrip_error_const (k : ℕ) :
    (qInv Mdd).mulVec (roundVec (Mdd.mulVec
        (fun j => ((![4 * k + 1, 0] : Fin 2 → ℕ) j : ℚ)))) 0
      - ((![4 * k + 1, 0] : Fin 2 → ℕ) 0 : ℚ) = 1 / 2 := by
  have hmv0 : Mdd.mulVec (fun j => ((![4 * k + 1, 0] : Fin 2 → ℕ) j : ℚ)) 0
      = 3 * k + 3 / 4 := by
    simp [Mdd, Matrix.mulVec, Matrix.dotProduct, Fin.sum_univ_two]
    ring
  have hmv1 : Mdd.mulVec (fun j => ((![4 * k + 1, 0] : Fin 2 → ℕ) j : ℚ)) 1
      = k + 1 / 4 := by
    simp [Mdd, Matrix.mulVec, Matrix.dotProduct, Fin.sum_univ_two]
    ring
  have hr0 : roundVec (Mdd.mulVec
      (fun j => ((![4 * k + 1, 0] : Fin 2 → ℕ) j : ℚ))) 0
      = 3 * k + 1 := by
    rw [roundVec, hmv0, round_eq]
    have heq : (3 : ℚ) * k + 3 / 4 + 1 / 2 = 1 / 4 + ((3 * k + 1 : ℤ) : ℚ) := by
      push_cast
      ring
    rw [heq, Int.floor_add_int]
    have : ⌊(1 / 4 : ℚ)⌋ = 0 := by norm_num [Int.floor_eq_iff]
    rw [this]
    push_cast
    ring
  have hr1 : roundVec (Mdd.mulVec
      (fun j => ((![4 * k + 1, 0] : Fin 2 → ℕ) j : ℚ))) 1
      = k := by
    rw [roundVec, hmv1, round_eq]
    have heq : (k : ℚ) + 1 / 4 + 1 / 2 = 3 / 4 + ((k : ℤ) : ℚ) := by
      push_cast
      ring
    rw [heq, Int.floor_add_int]
    have : ⌊(3 / 4 : ℚ)⌋ = 0 := by norm_num [Int.floor_eq_iff]
    rw [this]
    push_cast
    ring
  obtain ⟨h00, h01, _, _⟩ := qInv_Mdd_entries
  have hmul : (qInv Mdd).mulVec (roundVec (Mdd.mulVec
      (fun j => ((![4 * k + 1, 0] : Fin 2 → ℕ) j : ℚ)))) 0
      = qInv Mdd 0 0 * roundVec (Mdd.mulVec
          (fun j => ((![4 * k + 1, 0] : Fin 2 → ℕ) j : ℚ))) 0
        + qInv Mdd 0 1 * roundVec (Mdd.mulVec
          (fun j => ((![4 * k + 1, 0] : Fin 2 → ℕ) j : ℚ))) 1 := by
    simp [Matrix.mulVec, Matrix.dotProduct, Fin.sum_univ_two]
  rw [hmul, hr0, hr1, h00, h01]
  have hx0 : ((![4 * k + 1, 0] : Fin 2 → ℕ) 0 : ℚ) = 4 * k + 1 := by
    simp
  rw [hx0]
  ring

/-- C5 as stated is false on the code's direct-inverse corrector: `Mdd` is
a valid calibration matrix (columns sum to 1, strictly diagonally
dominant), yet along the ideal vectors `x_k = [4k+1, 0]`, whose shot
totals `S = 4k+1` grow without bound, the round trip
`x ↦ M⁻¹ · round(M·x)` misses the true count in entry 0 by exactly `1/2`
for every `k`; hence no tolerance that shrinks to zero as `S` grows can
bound the recovery error. -/
theorem C5_no_shrinking_tolerance :
    (∀ j, (∑ i, Mdd i j) = 1) ∧ ColDiagDominant Mdd ∧
    ¬ ∃ tol : ℕ → ℚ,
      (∀ ε : ℚ, 0 < ε → ∃ N : ℕ, ∀ s, N ≤ s → tol s < ε) ∧
      ∀ k : ℕ,
        |(qInv Mdd).mulVec (roundVec (Mdd.mulVec
            (fun j => ((![4 * k + 1, 0] : Fin 2 → ℕ) j : ℚ)))) 0
          - ((![4 * k + 1, 0] : Fin 2 → ℕ) 0 : ℚ)|
          ≤ tol (∑ j, (![4 * k + 1, 0] : Fin 2 → ℕ) j) := by
  refine ⟨Mdd_colsum, Mdd_dd, ?_⟩
  rintro ⟨tol, hshrink, hbound⟩
  obtain ⟨N, hN⟩ := hshrink (1 / 2) (by norm_num)
  have hb := hbound N
  rw [roundtrip_error_const N] at hb
  have hsum : (∑ j, (![4 * N + 1, 0] : Fin 2 → ℕ) j) = 4 * N + 1 := by
    simp [Fin.sum_univ_two]
  rw [hsum] at hb
  have htol := hN (4 * N + 1) (by omega)
  rw [abs_of_pos (by norm_num : (0 : ℚ) < 1 / 2)] at hb
  linarith

/-! ## Name resolution across the notebook's cells

The notebook's last visualization cell reads the global name
`noisy_counts`.  To settle whether that cell can ever run, the code cells
are modelled at the granularity of top-level statements, each abstracted
to the global names it reads and the global names it binds (imports,
assignments, `def`s and loop targets all bind; a call into a
notebook-defined function reads the globals of that function's body;
Python resolves the callee before the call's arguments). -/

/-- One executed top-level Python statement, abstracted to the global
names it reads and the global names it binds. -/
structure PyStmt where
  refs : List String
  binds : List String

/-- Run the statements of one cell in order: stop at the first statement
reading a name missing from the environment (a Python `NameError`),
otherwise thread the bindings through. -/
def runCell : List PyStmt → List String → Except String (List String)
  | [], env => .ok env
  | s :: rest, env =>
    match s.refs.find? (fun r => ! env.contains r) with
    | some r => .error r
    | none => runCell rest (env ++ s.binds)

/-- Run cells in order, numbering them from `idx`: the result is either
the final environment or the (cell number, unbound name) of the first
`NameError`; execution stops at that cell. -/
def runCellsFrom : ℕ → List (List PyStmt) → List String →
    Except (ℕ × String) (List String)
  | _, [], env => .ok env
  | idx, c :: rest, env =>
    match runCell c env with
    | .error r => .error (idx, r)
    | .ok env2 => runCellsFrom (idx + 1) rest env2

/-- The notebook's code cells (in execution order, numbered 1–19 as in
the stored `execution_count`s), reduced to their name-binding structure.
Loop bodies appear once: re-running them binds no further names. -/
def notebookCells : List (List PyStmt) := [
  -- cell 1: from qiskit import ...
  [⟨[], ["QuantumCircuit", "QuantumRegister", "Aer", "transpile",
         "assemble"]⟩],
  -- cell 2: noise imports and def get_noise
  [⟨[], ["NoiseModel", "pauli_error", "depolarizing_error"]⟩,
   ⟨[], ["get_noise"]⟩],
  -- cell 3: noise_model = get_noise(0.01); the body reads pauli_error
  -- and NoiseModel at call time
  [⟨["get_noise", "pauli_error", "NoiseModel"], ["noise_model"]⟩],
  -- cell 4: backend and the basis-state loop
  [⟨["Aer"], ["qasm_sim"]⟩,
   ⟨[], ["state"]⟩,
   ⟨["QuantumCircuit"], ["qc"]⟩,
   ⟨["state", "qc"], []⟩,
   ⟨["state", "qc"], []⟩,
   ⟨["qc"], []⟩,
   ⟨["transpile", "qc", "qasm_sim"], ["t_qc"]⟩,
   ⟨["assemble", "t_qc"], ["qobj"]⟩,
   ⟨["qasm_sim", "qobj", "noise_model"], ["counts"]⟩,
   ⟨["print", "state", "counts"], []⟩],
  -- cell 5: Bell circuit under noise
  [⟨["QuantumCircuit"], ["qc"]⟩,
   ⟨["qc"], []⟩,
   ⟨["qc"], []⟩,
   ⟨["qc"], []⟩,
   ⟨["transpile", "qc", "qasm_sim"], ["t_qc"]⟩,
   ⟨["assemble", "t_qc"], ["qobj"]⟩,
   ⟨["qasm_sim", "qobj", "noise_model"], ["counts"]⟩,
   ⟨["print", "counts"], []⟩],
  -- cell 6: numpy, M, Cideal, Cnoisy
  [⟨[], ["np"]⟩,
   ⟨[], ["M"]⟩,
   ⟨[], ["Cideal"]⟩,
   ⟨["np", "M", "Cideal"], ["Cnoisy"]⟩,
   ⟨["print", "Cnoisy"], []⟩],
  -- cell 7: scipy.linalg, M again, Minv
  [⟨[], ["la"]⟩,
   ⟨[], ["M"]⟩,
   ⟨["la", "M"], ["Minv"]⟩,
   ⟨["print", "Minv"], []⟩],
  -- cell 8: Cmitigated
  [⟨["np", "Minv", "Cnoisy"], ["Cmitigated"]⟩,
   ⟨["print", "Cmitigated"], []⟩],
  -- cell 9: ignis imports
  [⟨[], ["complete_meas_cal", "CompleteMeasFitter"]⟩],
  -- cell 10: register and calibration circuits
  [⟨["QuantumRegister"], ["qr"]⟩,
   ⟨["complete_meas_cal", "qr"], ["meas_calibs", "state_labels"]⟩],
  -- cell 11: print the calibration circuits
  [⟨["meas_calibs"], ["circuit"]⟩,
   ⟨["print", "circuit"], []⟩,
   ⟨["print", "circuit"], []⟩,
   ⟨["print"], []⟩],
  -- cell 12: run the calibration circuits
  [⟨["transpile", "meas_calibs", "qasm_sim"], ["t_qc"]⟩,
   ⟨["assemble", "t_qc"], ["qobj"]⟩,
   ⟨["qasm_sim", "qobj", "noise_model"], ["cal_results"]⟩],
  -- cell 13: fit the calibration matrix
  [⟨["CompleteMeasFitter", "cal_results", "state_labels"], ["meas_fitter"]⟩,
   ⟨["print", "meas_fitter"], []⟩],
  -- cell 14: stronger noise model
  [⟨["get_noise", "pauli_error", "NoiseModel"], ["noise_model"]⟩],
  -- cell 15: rerun calibration and refit
  [⟨["transpile", "meas_calibs", "qasm_sim"], ["t_qc"]⟩,
   ⟨["assemble", "t_qc"], ["qobj"]⟩,
   ⟨["qasm_sim", "qobj", "noise_model"], ["cal_results"]⟩,
   ⟨["CompleteMeasFitter", "cal_results", "state_labels"], ["meas_fitter"]⟩,
   ⟨["print", "meas_fitter"], []⟩],
  -- cell 16: Bell circuit under the stronger noise
  [⟨["QuantumCircuit"], ["qc"]⟩,
   ⟨["qc"], []⟩,
   ⟨["qc"], []⟩,
   ⟨["qc"], []⟩,
   ⟨["transpile", "qc", "qasm_sim"], ["t_qc"]⟩,
   ⟨["assemble", "t_qc"], ["qobj"]⟩,
   ⟨["qasm_sim", "qobj", "noise_model"], ["results"]⟩,
   ⟨["print", "results"], []⟩],
  -- cell 17: filter and mitigated counts
  [⟨["meas_fitter"], ["meas_filter"]⟩,
   ⟨["meas_filter", "results"], ["mitigated_results"]⟩,
   ⟨["mitigated_results"], ["mitigated_counts"]⟩],
  -- cell 18: the visualization cell
  [⟨[], ["plot_histogram"]⟩,
   ⟨["plot_histogram", "noisy_counts", "mitigated_counts"], []⟩],
  -- cell 19: version stamp
  [⟨[], ["qiskit"]⟩,
   ⟨["qiskit"], []⟩]]

/-- The builtins the notebook's top-level statements read. -/
def builtinEnv : List String := ["print"]

/-- Executing the notebook's cells in order. -/
def runNotebook : Except (ℕ × String) (List String) :=
  runCellsFrom 1 notebookCells builtinEnv

/-- C10: running the notebook's cells in order always fails at cell 18,
the `plot_histogram` cell, with a `NameError` on `noisy_counts` — that
name is bound by no statement of any cell — so execution stops there and
the mitigated counts are never plotted. -/
theorem C10_plot_cell_name_error :
    runNotebook = .error (18, "noisy_counts") ∧
    ∀ cell ∈ notebookCells, ∀ s ∈ cell, "noisy_counts" ∉ s.binds := by
  constructor
  · rfl
  · decide

end MeasMit
